import Mathlib

set_option maxHeartbeats 800000

namespace SFEmbedded

/-!
Shallow embedding of the SFEngine bridge sources:
`ThreadSafeQueue.hpp`, `CommandStream.hpp`, `LineBufferStream.hpp` and
`EmbeddedUCI.cpp`.  C++ strings are modelled as `List Char`; the blocking
wait inside `ThreadSafeQueue::pop` is modelled by an explicit `blocks`
outcome, and the `std::function` callback of `LineBufferStreambuf` is
modelled by its emptiness flag plus the list of payloads it received.
-/

/-- State of `ThreadSafeQueue<T>` (ThreadSafeQueue.hpp): the contents of the
`std::deque queue_` (front of the deque at the head of the list) and the
`closed_` flag. -/
structure ThreadSafeQueue (T : Type) where
  items : List T
  closed : Bool
deriving Repr, DecidableEq

namespace ThreadSafeQueue

/-- `ThreadSafeQueue::push`: under the lock, return with no change if
`closed_`, otherwise `push_back` the value. -/
def push (q : ThreadSafeQueue T) (v : T) : ThreadSafeQueue T :=
  if q.closed then q else { q with items := q.items ++ [v] }

/-- Outcome of one `ThreadSafeQueue::pop` call.  `cv_.wait` keeps the caller
blocked while the queue is open and empty (`blocks`); once past the wait,
`pop` returns `false` when the deque is empty (`endOfInput`) and otherwise
removes and returns the front element. -/
inductive PopResult (T : Type) where
  | blocks
  | endOfInput
  | item (v : T) (rest : ThreadSafeQueue T)
deriving Repr, DecidableEq

/-- `ThreadSafeQueue::pop` (ThreadSafeQueue.hpp lines 32-41). -/
def pop (q : ThreadSafeQueue T) : PopResult T :=
  match q.items with
  | [] => if q.closed then PopResult.endOfInput else PopResult.blocks
  | v :: rest => PopResult.item v { q with items := rest }

/-- `ThreadSafeQueue::close`: set `closed_` under the lock. -/
def close (q : ThreadSafeQueue T) : ThreadSafeQueue T :=
  { q with closed := true }

/-- A sequence of `push` calls, issued in list order. -/
def pushAll (q : ThreadSafeQueue T) (xs : List T) : ThreadSafeQueue T :=
  xs.foldl push q

/-- The values returned by `n` successive `pop` calls, stopping at the first
call that blocks or reports end of input. -/
def popSeq : Nat → ThreadSafeQueue T → List T
  | 0, _ => []
  | n + 1, q =>
    match q.pop with
    | PopResult.item v rest => v :: popSeq n rest
    | _ => []

end ThreadSafeQueue

/-- `traits_type::to_int_type` on a concrete `char`, as the byte value. -/
def toIntType (c : Char) : Nat := c.toNat

/-- The byte array `std::string::data()` exposes for a string: its characters
followed by the null terminator guaranteed by C++11. -/
def backing (s : List Char) : List Char := s ++ ['\x00']

/-- The byte read by dereferencing `data() + i`. -/
def byteAt (s : List Char) (i : Nat) : Nat := toIntType ((backing s).getD i '\x00')

/-- The newline normalization in `CommandStreambuf::underflow`
(CommandStream.hpp lines 33-35): `push_back('\n')` exactly when the string is
non-empty and its last character is not a newline. -/
def normalizeCmd (s : List Char) : List Char :=
  if s ≠ [] ∧ s.getLast? ≠ some '\n' then s ++ ['\n'] else s

/-- State of `CommandStreambuf` (CommandStream.hpp): the backing queue, the
current command string `current_`, and the get-area read position
`gptr() - eback()`; `egptr() - eback()` corresponds to `current.length`. -/
structure CommandStreambuf where
  queue : ThreadSafeQueue (List Char)
  current : List Char
  pos : Nat
deriving Repr, DecidableEq

/-- Result of one `CommandStreambuf::underflow` call: block inside
`queue_.pop`, return `traits_type::eof()`, or return a character byte. -/
inductive ReadResult where
  | blocks
  | eof
  | chr (b : Nat)
deriving Repr, DecidableEq

/-- `CommandStreambuf::underflow` (CommandStream.hpp lines 24-40): serve the
get area if characters remain, otherwise pop the next command, normalize its
trailing newline, install the new get area over `current_.data()` and return
the byte at `gptr()` (for an empty command this byte is the string's null
terminator). -/
def underflow (s : CommandStreambuf) : ReadResult × CommandStreambuf :=
  if s.pos < s.current.length then
    (ReadResult.chr (byteAt s.current s.pos), s)
  else
    match s.queue.pop with
    | ThreadSafeQueue.PopResult.blocks => (ReadResult.blocks, s)
    | ThreadSafeQueue.PopResult.endOfInput => (ReadResult.eof, s)
    | ThreadSafeQueue.PopResult.item v q' =>
      let cur := normalizeCmd v
      (ReadResult.chr (byteAt cur 0), ⟨q', cur, 0⟩)

/-- State of `LineBufferStreambuf` (LineBufferStream.hpp): whether the
`std::function callback_` is non-null, and the pending `buffer_`. -/
structure LineBufferStreambuf where
  hasCallback : Bool
  buffer : List Char
deriving Repr, DecidableEq

/-- `LineBufferStreambuf::flush_line` (LineBufferStream.hpp lines 46-52):
do nothing when the callback is null or the buffer is empty; otherwise invoke
the callback with the buffer contents and clear it.  The second component is
the list of callback payloads this call produced. -/
def flush_line (s : LineBufferStreambuf) : LineBufferStreambuf × List (List Char) :=
  if s.hasCallback = false ∨ s.buffer = [] then (s, [])
  else ({ s with buffer := [] }, [s.buffer])

/-- `LineBufferStreambuf::overflow` (LineBufferStream.hpp lines 22-37):
`none` models `traits_type::eof()`, which is ignored; a carriage return is
ignored; a newline calls `flush_line`; any other character is appended to the
buffer. -/
def overflow (s : LineBufferStreambuf) (ch : Option Char) :
    LineBufferStreambuf × List (List Char) :=
  match ch with
  | none => (s, [])
  | some c =>
    if c = '\r' then (s, [])
    else if c = '\n' then flush_line s
    else ({ s with buffer := s.buffer ++ [c] }, [])

/-- `LineBufferStreambuf::sync` (LineBufferStream.hpp lines 39-43): flush the
pending line and return `0`.  The last component is the `int` return value. -/
def sync (s : LineBufferStreambuf) : (LineBufferStreambuf × List (List Char)) × Int :=
  (flush_line s, 0)

/-- Feed a character sequence through `overflow` one character at a time,
collecting all callback payloads in the order they were produced. -/
def feed (s : LineBufferStreambuf) : List Char → LineBufferStreambuf × List (List Char)
  | [] => (s, [])
  | c :: cs =>
    let p := overflow s (some c)
    let r := feed p.1 cs
    (r.1, p.2 ++ r.2)

/-- The ambient process-wide stream bindings touched by `StreamRedirector`:
the stream buffers currently installed in `std::cin` and `std::cout`,
modelled as opaque handles. -/
structure Channels where
  cinBuf : Nat
  coutBuf : Nat
deriving Repr, DecidableEq

/-- The `StreamRedirector` constructor (EmbeddedUCI.cpp lines 24-27):
`std::cin.rdbuf(in.rdbuf())` and `std::cout.rdbuf(out.rdbuf())` install the
new buffers and return the previous ones, which are saved.  Returns the new
ambient bindings together with the saved pair `(oldInBuf_, oldOutBuf_)`. -/
def redirectorInstall (amb : Channels) (inBuf outBuf : Nat) :
    Channels × (Nat × Nat) :=
  (⟨inBuf, outBuf⟩, (amb.cinBuf, amb.coutBuf))

/-- The `StreamRedirector` destructor (EmbeddedUCI.cpp lines 28-31):
unconditionally reinstall the saved buffers into `std::cin` and `std::cout`,
whatever the current bindings are. -/
def redirectorRestore (saved : Nat × Nat) (_amb : Channels) : Channels :=
  ⟨saved.1, saved.2⟩

/-- `RunStockfishUCI` (EmbeddedUCI.cpp lines 40-64) as a transformer of the
ambient channel bindings: construct the `StreamRedirector`, run the body
(banner write, engine setup and UCI loop, which either returns normally or
throws, and may itself touch the ambient bindings), then run the redirector
destructor — C++ runs it on normal return and on stack unwind alike. -/
def RunStockfishUCI (amb : Channels) (inBuf outBuf : Nat)
    (body : Channels → Except String Unit × Channels) :
    Except String Unit × Channels :=
  let p := redirectorInstall amb inBuf outBuf
  let r := body p.1
  (r.1, redirectorRestore p.2 r.2)

/-- The operations of `RunStockfishUCI` in source order. -/
inductive RunStep where
  | installRedirect
  | writeEngineInfo
  | writeEndl
  | bitboardsInit
  | positionInit
  | constructUCIEngine
  | tuneInit
  | uciLoop
  | restoreRedirect
deriving Repr, DecidableEq

/-- The statement order of `RunStockfishUCI` (EmbeddedUCI.cpp lines 40-64):
redirect, `std::cout << engine_info() << std::endl`, `Bitboards::init()`,
`Position::init()`, the `UCIEngine` constructor, `Tune::init`, `uci.loop()`,
and the redirector destructor on scope exit. -/
def runStockfishSteps : List RunStep :=
  [RunStep.installRedirect, RunStep.writeEngineInfo, RunStep.writeEndl,
   RunStep.bitboardsInit, RunStep.positionInit, RunStep.constructUCIEngine,
   RunStep.tuneInit, RunStep.uciLoop, RunStep.restoreRedirect]

/-- The character stream `RunStockfishUCI` sends to the redirected output:
the `engine_info()` banner, the newline written by `std::endl`, then whatever
`uci.loop()` writes.  The banner characters themselves come from Stockfish
code outside this repository and are left abstract. -/
def runStockfishOutput (banner rest : List Char) : List Char :=
  banner ++ '\n' :: rest

namespace ThreadSafeQueue

theorem pushAll_open (xs : List T) (q : ThreadSafeQueue T) (h : q.closed = false) :
    pushAll q xs = ⟨q.items ++ xs, false⟩ := by
  induction xs generalizing q with
  | nil =>
    cases q with
    | mk items closed =>
      simp only at h
      subst h
      simp [pushAll]
  | cons x xs ih =>
    cases q with
    | mk items closed =>
      simp only at h
      subst h
      have step : push (⟨items, false⟩ : ThreadSafeQueue T) x = ⟨items ++ [x], false⟩ := by
        simp [push]
      calc pushAll (⟨items, false⟩ : ThreadSafeQueue T) (x :: xs)
          = pushAll (push ⟨items, false⟩ x) xs := rfl
        _ = pushAll (⟨items ++ [x], false⟩ : ThreadSafeQueue T) xs := by rw [step]
        _ = ⟨(items ++ [x]) ++ xs, false⟩ := ih _ rfl
        _ = ⟨items ++ x :: xs, false⟩ := by simp

theorem popSeq_take (n : Nat) (l : List T) (c : Bool) :
    popSeq n ⟨l, c⟩ = l.take n := by
  induction n generalizing l with
  | zero => simp [popSeq]
  | succ n ih =>
    cases l with
    | nil => cases c <;> simp [popSeq, pop]
    | cons a l => simp [popSeq, pop, ih]

end ThreadSafeQueue

theorem feed_plain : ∀ (cs : List Char) (cb : Bool) (b : List Char),
    (∀ c ∈ cs, c ≠ '\r' ∧ c ≠ '\n') →
    feed ⟨cb, b⟩ cs = (⟨cb, b ++ cs⟩, [])
  | [], cb, b, _ => by simp [feed]
  | c :: cs, cb, b, h => by
    have hc := h c (by simp)
    have hrest : ∀ x ∈ cs, x ≠ '\r' ∧ x ≠ '\n' := fun x hx => h x (by simp [hx])
    have ih := feed_plain cs cb (b ++ [c]) hrest
    simp [feed, overflow, hc.1, hc.2, ih]

theorem feed_append (xs ys : List Char) (s : LineBufferStreambuf) :
    feed s (xs ++ ys) =
      ((feed (feed s xs).1 ys).1, (feed s xs).2 ++ (feed (feed s xs).1 ys).2) := by
  induction xs generalizing s with
  | nil => simp [feed]
  | cons c cs ih => simp [feed, ih]

open ThreadSafeQueue

/-- C1: on a queue that has not been closed, a sequence of `push` calls
appends the items at the tail, and successive `pop` calls return them front
first, in exactly the order pushed, with no item lost, duplicated or
reordered. -/
theorem C1_fifo_order (q : ThreadSafeQueue T) (xs : List T)
    (h : q.closed = false) :
    pushAll q xs = ⟨q.items ++ xs, false⟩ ∧
    (∀ n, popSeq n (pushAll q xs) = (q.items ++ xs).take n) ∧
    popSeq (q.items ++ xs).length (pushAll q xs) = q.items ++ xs := by
  have hp := pushAll_open xs q h
  refine ⟨hp, fun n => ?_, ?_⟩
  · rw [hp, popSeq_take]
  · rw [hp, popSeq_take]
    simp

/-- Witness for C1 at a fresh queue receiving three pushes. -/
theorem C1_fifo_order_witness :
    popSeq 3 (pushAll (⟨[], false⟩ : ThreadSafeQueue Nat) [5, 7, 9]) = [5, 7, 9] := by
  have h := C1_fifo_order (⟨[], false⟩ : ThreadSafeQueue Nat) [5, 7, 9] rfl
  simpa using h.2.1 3

/-- C2: `pop` returns the oldest remaining item whenever one is present, even
when the queue is closed; it reports end of input exactly when the queue is
both closed and empty; and when `pop` reports end of input with the get area
exhausted, `CommandStreambuf::underflow` returns `eof` to its reader. -/
theorem C2_close_drains (q : ThreadSafeQueue T) (s : CommandStreambuf) :
    (∀ v rest, q.items = v :: rest →
      q.pop = PopResult.item v { q with items := rest }) ∧
    (q.pop = PopResult.endOfInput ↔ (q.closed = true ∧ q.items = [])) ∧
    (¬ s.pos < s.current.length → s.queue.closed = true → s.queue.items = [] →
      underflow s = (ReadResult.eof, s)) := by
  refine ⟨?_, ?_, ?_⟩
  · intro v rest hv
    simp [pop, hv]
  · obtain ⟨items, closed⟩ := q
    cases items <;> cases closed <;> simp [pop]
  · intro h1 h2 h3
    simp [underflow, h1, pop, h3, h2]

/-- Witness for C2: a closed queue still yields its item, and underflow on a
closed drained queue returns eof. -/
theorem C2_close_drains_witness :
    pop (⟨[['x']], true⟩ : ThreadSafeQueue (List Char)) =
      PopResult.item ['x'] ⟨[], true⟩ ∧
    underflow ⟨⟨[], true⟩, [], 0⟩ = (ReadResult.eof, ⟨⟨[], true⟩, [], 0⟩) := by
  have h := C2_close_drains (⟨[['x']], true⟩ : ThreadSafeQueue (List Char))
    ⟨⟨[], true⟩, [], 0⟩
  exact ⟨by simpa using h.1 ['x'] [] rfl, h.2.2 (by decide) rfl rfl⟩

/-- C6: pushing onto a closed queue leaves the queue state completely
unchanged, so the pushed value is never returned by any later pop. -/
theorem C6_push_after_close (q : ThreadSafeQueue T) (y : T)
    (h : q.closed = true) :
    q.push y = q ∧ (∀ n, popSeq n (q.push y) = popSeq n q) := by
  have hp : q.push y = q := by simp [push, h]
  exact ⟨hp, fun n => by rw [hp]⟩

/-- Witness for C6 at a concrete closed queue. -/
theorem C6_push_after_close_witness :
    push (⟨[], true⟩ : ThreadSafeQueue Nat) 4 = ⟨[], true⟩ ∧
    popSeq 1 (push (⟨[], true⟩ : ThreadSafeQueue Nat) 4) = popSeq 1 ⟨[], true⟩ :=
  ⟨(C6_push_after_close ⟨[], true⟩ 4 rfl).1,
   (C6_push_after_close ⟨[], true⟩ 4 rfl).2 1⟩

/-- C4 counterexample: after popping the empty command, the byte sequence
`underflow` exposes to the consumer is empty — it does not end with a newline
terminator, because the `push_back` guard requires a non-empty string. -/
theorem C4_counterexample :
    (underflow ⟨⟨[[]], false⟩, [], 0⟩).2.current = [] ∧
    ((underflow ⟨⟨[[]], false⟩, [], 0⟩).2.current).getLast? ≠ some '\n' := by
  decide

/-- C4 amended: for every non-empty command whose last character is not a
newline, exactly one newline is appended, never two (the result ends with a
newline and the character before it is not a newline); a command already
ending with a newline is exposed unchanged; the empty command is exposed
unchanged, with no terminator appended. -/
theorem C4_normalization (s : List Char) :
    normalizeCmd [] = ([] : List Char) ∧
    (s.getLast? = some '\n' → normalizeCmd s = s) ∧
    (s ≠ [] → s.getLast? ≠ some '\n' →
      normalizeCmd s = s ++ ['\n'] ∧
      (normalizeCmd s).getLast? = some '\n' ∧
      (normalizeCmd s).dropLast.getLast? ≠ some '\n') := by
  refine ⟨by simp [normalizeCmd], fun h => by simp [normalizeCmd, h], ?_⟩
  intro h1 h2
  have he : normalizeCmd s = s ++ ['\n'] := by simp [normalizeCmd, h1, h2]
  refine ⟨he, by rw [he]; simp, ?_⟩
  rw [he]
  simpa using h2

/-- Witness for the amended C4 at the command "ab". -/
theorem C4_normalization_witness :
    normalizeCmd ['a', 'b'] = ['a', 'b', '\n'] ∧
    (normalizeCmd ['a', 'b']).getLast? = some '\n' ∧
    (normalizeCmd ['a', 'b']).dropLast.getLast? ≠ some '\n' := by
  have h := (C4_normalization ['a', 'b']).2.2 (by decide) (by decide)
  simpa using h

/-- C8: when the get area is exhausted and `pop` yields the empty command,
`underflow` appends no newline, installs an empty get area (begin, current
and end all at position 0 of the empty string), and returns the byte value 0
read from the string's null terminator — an access at index equal to the
get-area length, which is in bounds for the backing buffer — rather than the
end-of-file value or a blocking retry. -/
theorem C8_empty_command (s : CommandStreambuf) (rest : List (List Char))
    (hpos : ¬ s.pos < s.current.length) (hq : s.queue.items = [] :: rest) :
    underflow s = (ReadResult.chr 0, ⟨⟨rest, s.queue.closed⟩, [], 0⟩) ∧
    byteAt [] 0 = 0 ∧
    ([] : List Char).length < (backing []).length := by
  obtain ⟨q, cur, p⟩ := s
  obtain ⟨qi, qc⟩ := q
  simp only at hq hpos
  subst hq
  have hb : byteAt ([] : List Char) 0 = 0 := by decide
  refine ⟨?_, hb, by decide⟩
  simp [underflow, hpos, pop, normalizeCmd, hb]

/-- Witness for C8 at a queue holding one empty command. -/
theorem C8_empty_command_witness :
    underflow ⟨⟨[[]], true⟩, [], 0⟩ = (ReadResult.chr 0, ⟨⟨[], true⟩, [], 0⟩) := by
  have h := C8_empty_command ⟨⟨[[]], true⟩, [], 0⟩ [] (by decide) rfl
  simpa using h.1

/-- C3: feeding "abc\r\ndef\n" one character at a time produces exactly the
payloads "abc" then "def" in that order; feeding "\n\n" produces none; in
general a carriage return is never appended to the buffer or forwarded, a
newline flushes a non-empty buffer (payload excludes the terminator, buffer
cleared) and is a no-op on an empty buffer, and any other character is
appended to the buffer. -/
theorem C3_line_splitting (s : LineBufferStreambuf) (c : Char) :
    (feed ⟨true, []⟩ ['a', 'b', 'c', '\r', '\n', 'd', 'e', 'f', '\n']).2 =
      [['a', 'b', 'c'], ['d', 'e', 'f']] ∧
    (feed ⟨true, []⟩ ['\n', '\n']).2 = [] ∧
    overflow s (some '\r') = (s, []) ∧
    (s.hasCallback = true → s.buffer ≠ [] →
      overflow s (some '\n') = ({ s with buffer := [] }, [s.buffer])) ∧
    (s.buffer = [] → overflow s (some '\n') = (s, [])) ∧
    (c ≠ '\r' → c ≠ '\n' →
      overflow s (some c) = ({ s with buffer := s.buffer ++ [c] }, [])) := by
  refine ⟨by decide, by decide, by simp [overflow], ?_, ?_, ?_⟩
  · intro h1 h2
    simp [overflow, flush_line, h1, h2]
  · intro h
    simp [overflow, flush_line, h]
  · intro h1 h2
    simp [overflow, h1, h2]

/-- Witness for C3: a plain character is appended to the pending buffer. -/
theorem C3_line_splitting_witness :
    overflow ⟨true, ['x']⟩ (some 'y') = (⟨true, ['x', 'y']⟩, []) := by
  have h := (C3_line_splitting ⟨true, ['x']⟩ 'y').2.2.2.2.2 (by decide) (by decide)
  simpa using h

/-- C5: after writing characters that received no terminator, `sync` invokes
the callback exactly once with the buffered payload and clears the buffer;
`sync` on an empty pending buffer invokes the callback zero times; in both
cases `sync` returns 0. -/
theorem C5_sync_flush (cs : List Char) (s : LineBufferStreambuf) :
    (cs ≠ [] → (∀ c ∈ cs, c ≠ '\r' ∧ c ≠ '\n') →
      feed ⟨true, []⟩ cs = (⟨true, cs⟩, []) ∧
      sync (feed ⟨true, []⟩ cs).1 = ((⟨true, []⟩, [cs]), 0)) ∧
    (s.buffer = [] → sync s = ((s, []), 0)) := by
  constructor
  · intro h1 h2
    have hf := feed_plain cs true [] h2
    simp only [List.nil_append] at hf
    refine ⟨hf, ?_⟩
    rw [hf]
    simp [sync, flush_line, h1]
  · intro h
    simp [sync, flush_line, h]

/-- Witness for C5: syncing after the unterminated write "tail". -/
theorem C5_sync_flush_witness :
    sync (feed ⟨true, []⟩ ['t', 'a', 'i', 'l']).1 =
      ((⟨true, []⟩, [['t', 'a', 'i', 'l']]), 0) := by
  have h := (C5_sync_flush ['t', 'a', 'i', 'l'] ⟨true, []⟩).1 (by decide) (by decide)
  exact h.2

/-- C9: with a null callback, `flush_line` leaves the pending buffer
unchanged and produces no payload, so neither a newline nor `sync` ever
clears the buffer: every character other than a carriage return or newline
is retained in the buffer and no line is ever delivered. -/
theorem C9_null_callback (s : LineBufferStreambuf) (b cs : List Char)
    (hs : s.hasCallback = false) :
    flush_line s = (s, []) ∧
    sync s = ((s, []), 0) ∧
    feed ⟨false, b⟩ cs =
      (⟨false, b ++ cs.filter (fun c => !(c == '\r' || c == '\n'))⟩, []) := by
  refine ⟨by simp [flush_line, hs], by simp [sync, flush_line, hs], ?_⟩
  induction cs generalizing b with
  | nil => simp [feed]
  | cons c cs ih =>
    by_cases hr : c = '\r'
    · subst hr
      simp [feed, overflow, ih]
    · by_cases hn : c = '\n'
      · subst hn
        simp [feed, overflow, flush_line, ih]
      · simp [feed, overflow, hr, hn, ih]

/-- Witness for C9: a null-callback buffer keeps its characters through a
newline. -/
theorem C9_null_callback_witness :
    flush_line ⟨false, ['x']⟩ = (⟨false, ['x']⟩, []) ∧
    feed ⟨false, []⟩ ['a', '\n'] = (⟨false, ['a']⟩, []) := by
  have h := C9_null_callback ⟨false, ['x']⟩ [] ['a', '\n'] rfl
  exact ⟨h.1, by simpa using h.2.2⟩

/-- C7: on every exit path of `RunStockfishUCI` — normal return of the body
or a propagated failure — the ambient cin and cout buffers end up restored to
exactly the values they held before the scope was entered, and the body's
outcome is passed through unchanged. -/
theorem C7_redirector_restores (amb : Channels) (inBuf outBuf : Nat)
    (body : Channels → Except String Unit × Channels) :
    (RunStockfishUCI amb inBuf outBuf body).2 = amb ∧
    (RunStockfishUCI amb inBuf outBuf body).1 = (body ⟨inBuf, outBuf⟩).1 :=
  ⟨rfl, rfl⟩

/-- C10: the banner write and its terminator precede the engine construction
and the UCI loop in `RunStockfishUCI`, so for any non-empty single-line
banner and any subsequent loop output, the first payload delivered through
the output callback is the banner. -/
theorem C10_banner_first (banner rest : List Char)
    (hne : banner ≠ []) (hc : ∀ c ∈ banner, c ≠ '\n' ∧ c ≠ '\r') :
    runStockfishSteps.indexOf RunStep.writeEngineInfo <
      runStockfishSteps.indexOf RunStep.constructUCIEngine ∧
    runStockfishSteps.indexOf RunStep.writeEngineInfo <
      runStockfishSteps.indexOf RunStep.uciLoop ∧
    ((feed ⟨true, []⟩ (runStockfishOutput banner rest)).2).head? = some banner := by
  refine ⟨by decide, by decide, ?_⟩
  have hplain : ∀ c ∈ banner, c ≠ '\r' ∧ c ≠ '\n' :=
    fun c h => ⟨(hc c h).2, (hc c h).1⟩
  have hb := feed_plain banner true [] hplain
  simp only [List.nil_append] at hb
  have happ := feed_append banner ('\n' :: rest) (⟨true, []⟩ : LineBufferStreambuf)
  have hstep : feed ⟨true, banner⟩ ('\n' :: rest) =
      ((feed ⟨true, []⟩ rest).1, banner :: (feed ⟨true, []⟩ rest).2) := by
    simp [feed, overflow, flush_line, hne]
  rw [runStockfishOutput, happ, hb]
  rw [hb] at happ
  simp [hstep]

/-- Witness for C10 at a concrete banner and loop output. -/
theorem C10_banner_first_witness :
    ((feed ⟨true, []⟩ (runStockfishOutput ['S', 'F'] ['i', 'd', '\n'])).2).head? =
      some ['S', 'F'] := by
  have h := C10_banner_first ['S', 'F'] ['i', 'd', '\n'] (by decide) (by decide)
  exact h.2.2

end SFEmbedded
